import Mathlib

/-!
Verification of the ThingsBoard repository specification against its sources.

The repository ships two kinds of material relevant to the frozen claims:

* `frontend-react/src/types/entityview.types.ts` — executable TypeScript
  helpers for entity views and OTA packages.  These are embedded directly
  below (`EntityViewTypes` namespace).
* The rule-engine design (chain actors, partitioned consumers, circuit
  breaker, retry policy, rate limiting).  The repository contains only its
  documentation, not the Java implementation, so those components are
  modelled from the specification text (`RuleEngine` namespace); each such
  definition carries a doc comment starting `Modelled from the spec:`.
-/

namespace EntityViewTypes

/-- Embeds `EntityId` from `frontend-react/src/types/entityview.types.ts`:
an `id` string together with an `entityType` tag. -/
structure EntityIdT where
  id : String
  entityType : String
deriving Repr, DecidableEq

/-- Embeds `AttributeEntityView`: optional client / server / shared scope
attribute key lists (`cs`, `ss`, `sh`). -/
structure AttributeEntityView where
  cs : Option (List String)
  ss : Option (List String)
  sh : Option (List String)
deriving Repr, DecidableEq

/-- Embeds `TelemetryEntityView`: optional timeseries key list and optional
attribute key filters. -/
structure TelemetryEntityView where
  timeseries : Option (List String)
  attributes : Option AttributeEntityView
deriving Repr, DecidableEq

/-- Embeds `EntityView` (the fields used by the helper functions; times are
integers since JavaScript `Date.now()` arithmetic may go negative). -/
structure EntityView where
  tenantId : EntityIdT
  entityId : EntityIdT
  name : String
  type : String
  keys : TelemetryEntityView
  startTimeMs : Int
  endTimeMs : Int
deriving Repr, DecidableEq

/-- Embeds `createDefaultEntityView`; `now` stands for `Date.now()`. -/
def createDefaultEntityView (now : Int) : EntityView :=
  { tenantId := { id := "", entityType := "TENANT" }
    entityId := { id := "", entityType := "DEVICE" }
    name := ""
    type := ""
    keys := { timeseries := some []
              attributes := some { cs := some [], ss := some [], sh := some [] } }
    startTimeMs := now - 86400000 * 7
    endTimeMs := now + 86400000 * 365 }

/-- Executable model of JavaScript `String.prototype.trim`: drops leading
and trailing whitespace characters. -/
def trimString (s : String) : String :=
  String.mk (((s.toList.dropWhile Char.isWhitespace).reverse.dropWhile
    Char.isWhitespace).reverse)

/-- Embeds `isValidEntityView`. -/
def isValidEntityView (entityView : EntityView) : Bool :=
  decide (0 < (trimString entityView.name).length) &&
  decide (0 < (trimString entityView.type).length) &&
  decide (0 < entityView.entityId.id.length) &&
  decide (entityView.startTimeMs < entityView.endTimeMs)

/-- Embeds `hasAnyKeys`.  In the TypeScript source each conjunct
`xs && xs.length > 0` is truthy exactly when the list is present and
non-empty; an absent `attributes` makes all three attribute tests falsy. -/
def hasAnyKeys (keys : TelemetryEntityView) : Bool :=
  let hasTimeseries := match keys.timeseries with
    | some l => decide (0 < l.length)
    | none => false
  let hasClientAttrs := match keys.attributes with
    | some a => match a.cs with
      | some l => decide (0 < l.length)
      | none => false
    | none => false
  let hasServerAttrs := match keys.attributes with
    | some a => match a.ss with
      | some l => decide (0 < l.length)
      | none => false
    | none => false
  let hasSharedAttrs := match keys.attributes with
    | some a => match a.sh with
      | some l => decide (0 < l.length)
      | none => false
    | none => false
  hasTimeseries || hasClientAttrs || hasServerAttrs || hasSharedAttrs

/-- Embeds `getEntityViewKeyCount`: sums the lengths of the present lists,
counting an absent list as 0. -/
def getEntityViewKeyCount (keys : TelemetryEntityView) : Nat :=
  (match keys.timeseries with | some l => l.length | none => 0) +
  (match keys.attributes with
    | some a => (match a.cs with | some l => l.length | none => 0) +
                (match a.ss with | some l => l.length | none => 0) +
                (match a.sh with | some l => l.length | none => 0)
    | none => 0)

/-- Embeds `formatFileSize` from the OTA package helpers in the same file.
`none` stands for an `undefined` argument; JavaScript `!bytes` is true for
both `undefined` and `0`.  `toFixed2 num den` renders `num / den` with two
decimal digits (rounding half up), standing in for `Number.toFixed(2)`. -/
def toFixed2 (num den : Nat) : String :=
  let scaled := (num * 100 + den / 2) / den
  toString (scaled / 100) ++ "." ++
    (if scaled % 100 < 10 then "0" else "") ++ toString (scaled % 100)

def formatFileSize (bytes : Option Nat) : String :=
  match bytes with
  | none => "N/A"
  | some b =>
    if b = 0 then "N/A"
    else if b < 1024 then toString b ++ " B"
    else if b < 1024 * 1024 then toFixed2 b 1024 ++ " KB"
    else if b < 1024 * 1024 * 1024 then toFixed2 b (1024 * 1024) ++ " MB"
    else toFixed2 b (1024 * 1024 * 1024) ++ " GB"

end EntityViewTypes

namespace EntityViewTypes

/-- C8: `hasAnyKeys keys` returns true if and only if
`getEntityViewKeyCount keys > 0`, where the count is the sum of the lengths
of the timeseries, `cs`, `ss` and `sh` lists, each counted as 0 when absent. -/
theorem hasAnyKeys_iff_keyCount_pos (keys : TelemetryEntityView) :
    hasAnyKeys keys = true ↔ 0 < getEntityViewKeyCount keys := by
  obtain ⟨ts, attrs⟩ := keys
  cases ts <;>
    (cases attrs with
     | none => simp [hasAnyKeys, getEntityViewKeyCount]
     | some a =>
       obtain ⟨cs, ss, sh⟩ := a
       cases cs <;> cases ss <;> cases sh <;>
         simp [hasAnyKeys, getEntityViewKeyCount] <;> omega)

/-- C9: for every value of `Date.now()`, the default entity view has
`startTimeMs < endTimeMs` (7 days before now vs. 365 days after now), yet
`isValidEntityView` rejects it because `name`, `type` and `entityId.id` are
all empty strings. -/
theorem createDefaultEntityView_ordered_but_invalid (now : Int) :
    (createDefaultEntityView now).startTimeMs < (createDefaultEntityView now).endTimeMs ∧
    (createDefaultEntityView now).startTimeMs = now - 86400000 * 7 ∧
    (createDefaultEntityView now).endTimeMs = now + 86400000 * 365 ∧
    (createDefaultEntityView now).name = "" ∧
    (createDefaultEntityView now).type = "" ∧
    (createDefaultEntityView now).entityId.id = "" ∧
    isValidEntityView (createDefaultEntityView now) = false := by
  refine ⟨?_, rfl, rfl, rfl, rfl, rfl, ?_⟩
  · show now - 86400000 * 7 < now + 86400000 * 365
    omega
  · simp [isValidEntityView, createDefaultEntityView, trimString]

/-- C10: `formatFileSize` returns `"N/A"` for an absent argument and for a
0-byte size, and for any byte count `b` with `0 < b < 1024` it returns the
decimal representation of `b` followed by `" B"`. -/
theorem formatFileSize_small_spec :
    formatFileSize none = "N/A" ∧ formatFileSize (some 0) = "N/A" ∧
    ∀ b : Nat, 0 < b → b < 1024 → formatFileSize (some b) = toString b ++ " B" := by
  refine ⟨rfl, rfl, ?_⟩
  intro b hb hlt
  have h0 : ¬ b = 0 := by omega
  simp [formatFileSize, h0, hlt]

/-- Witness for C10 at the concrete byte count 5. -/
theorem formatFileSize_small_spec_witness :
    formatFileSize (some 5) = toString 5 ++ " B" :=
  formatFileSize_small_spec.2.2 5 (by decide) (by decide)

end EntityViewTypes

namespace RuleEngine

/-- Modelled from the spec: §3 — the Message Envelope record.  The Java
implementation (`TbMsg`) is not part of this repository snapshot; the fields
follow §3: `id`, `type`, originator (entity-type tag plus id), ordered
string-to-string `metadata`, opaque `payload`, `queueKey`
(tenant id + originator id) and `creationTime`. -/
structure Envelope where
  id : Nat
  type : String
  originatorType : String
  originatorId : Nat
  metadata : List (String × String)
  payload : String
  queueKey : Nat × Nat
  creationTime : Nat
deriving Repr, DecidableEq

/-- Modelled from the spec: §4.1 — `withMetadata` returns a new envelope
copy with the metadata replaced; the original is never mutated. -/
def withMetadata (e : Envelope) (m : List (String × String)) : Envelope :=
  { e with metadata := m }

/-- Modelled from the spec: §4.1 — `withPayload` returns a new envelope
copy with the payload replaced. -/
def withPayload (e : Envelope) (p : String) : Envelope :=
  { e with payload := p }

/-- Modelled from the spec: §4.1 — `withType` returns a new envelope copy
with the type tag replaced. -/
def withType (e : Envelope) (t : String) : Envelope :=
  { e with type := t }

/-- Modelled from the spec: §4.1 — envelope equality is by `id`. -/
def envEq (a b : Envelope) : Bool :=
  a.id == b.id

end RuleEngine

namespace RuleEngine

/-- C5: each transforming operation returns a new envelope that changes only
the targeted field — `id`, originator, `queueKey`, `creationTime` and the
untouched content fields are preserved — the result compares equal (by `id`)
to the original, and equality is determined by the `id` field alone.  The
operations are pure Lean functions, so the original envelope value is left
unchanged and there are no side effects. -/
theorem envelope_transforms_pure (e : Envelope) (m : List (String × String))
    (p t : String) :
    ((withMetadata e m).id = e.id ∧ (withMetadata e m).type = e.type ∧
     (withMetadata e m).originatorType = e.originatorType ∧
     (withMetadata e m).originatorId = e.originatorId ∧
     (withMetadata e m).payload = e.payload ∧
     (withMetadata e m).queueKey = e.queueKey ∧
     (withMetadata e m).creationTime = e.creationTime ∧
     (withMetadata e m).metadata = m) ∧
    ((withPayload e p).id = e.id ∧ (withPayload e p).type = e.type ∧
     (withPayload e p).originatorType = e.originatorType ∧
     (withPayload e p).originatorId = e.originatorId ∧
     (withPayload e p).metadata = e.metadata ∧
     (withPayload e p).queueKey = e.queueKey ∧
     (withPayload e p).creationTime = e.creationTime ∧
     (withPayload e p).payload = p) ∧
    ((withType e t).id = e.id ∧ (withType e t).originatorType = e.originatorType ∧
     (withType e t).originatorId = e.originatorId ∧
     (withType e t).metadata = e.metadata ∧
     (withType e t).payload = e.payload ∧
     (withType e t).queueKey = e.queueKey ∧
     (withType e t).creationTime = e.creationTime ∧
     (withType e t).type = t) ∧
    (envEq (withMetadata e m) e = true ∧ envEq (withPayload e p) e = true ∧
     envEq (withType e t) e = true) ∧
    (∀ a b : Envelope, envEq a b = true ↔ a.id = b.id) := by
  refine ⟨⟨rfl, rfl, rfl, rfl, rfl, rfl, rfl, rfl⟩,
          ⟨rfl, rfl, rfl, rfl, rfl, rfl, rfl, rfl⟩,
          ⟨rfl, rfl, rfl, rfl, rfl, rfl, rfl, rfl⟩, ⟨?_, ?_, ?_⟩, ?_⟩
  · simp [envEq, withMetadata]
  · simp [envEq, withPayload]
  · simp [envEq, withType]
  · intro a b
    simp [envEq]

end RuleEngine

namespace RuleEngine

/-- Modelled from the spec: §4.5 — Tenant Actor state: active tenant id,
admission timestamps for the rate-limit window, and the in-flight envelopes
queued for the tenant's chains.  The Java Tenant Actor is not part of this
repository snapshot. -/
structure TenantState where
  tenantId : Nat
  admittedTimes : List Nat
  inflight : List Envelope
  rateLimit : Nat
  rateWindowMs : Nat
deriving Repr, DecidableEq

/-- Modelled from the spec: §4.5 — number of admissions inside the current
rate-limit window ending at `now`. -/
def admissionsInWindow (st : TenantState) (now : Nat) : Nat :=
  (st.admittedTimes.filter
    (fun t => decide (t ≤ now) && decide (now ≤ t + st.rateWindowMs))).length

/-- Modelled from the spec: §4.5 — the tenant-wide message rate limit is
exceeded when the window already holds at least `rateLimit` admissions. -/
def rateExceeded (st : TenantState) (now : Nat) : Bool :=
  decide (st.rateLimit ≤ admissionsInWindow st now)

inductive SubmitResult
  | accepted
  | rateLimited
deriving Repr, DecidableEq

/-- Modelled from the spec: §4.5 — admission control at the Tenant Actor:
when the rate limit is exceeded the newly arriving envelope is rejected with
`RateLimited` and is not queued; otherwise it is admitted and queued. -/
def submitToTenant (st : TenantState) (now : Nat) (env : Envelope) :
    SubmitResult × TenantState :=
  if rateExceeded st now then (.rateLimited, st)
  else (.accepted,
        { st with admittedTimes := st.admittedTimes ++ [now]
                  inflight := st.inflight ++ [env] })

end RuleEngine

namespace RuleEngine

/-- C7: when the tenant-wide rate limit is exceeded, a newly arriving
envelope is rejected with `RateLimited` and not queued or buffered: the
tenant's whole state — in particular its in-flight queue and admission
record — is exactly what it was before the rejected envelope arrived. -/
theorem rateLimited_rejects_without_queueing (st : TenantState) (now : Nat)
    (env : Envelope) (h : rateExceeded st now = true) :
    (submitToTenant st now env).1 = SubmitResult.rateLimited ∧
    (submitToTenant st now env).2 = st ∧
    (submitToTenant st now env).2.inflight = st.inflight ∧
    (submitToTenant st now env).2.admittedTimes = st.admittedTimes := by
  simp [submitToTenant, h]

/-- Witness for C7: a tenant with limit 2 and two admissions already inside
the window rejects the next envelope and keeps its state unchanged. -/
theorem rateLimited_rejects_without_queueing_witness :
    (submitToTenant ⟨7, [5, 6], [], 2, 100⟩ 7
      ⟨1, "POST_TELEMETRY", "DEVICE", 4, [], "", (7, 4), 7⟩).1 =
        SubmitResult.rateLimited ∧
    (submitToTenant ⟨7, [5, 6], [], 2, 100⟩ 7
      ⟨1, "POST_TELEMETRY", "DEVICE", 4, [], "", (7, 4), 7⟩).2 =
        ⟨7, [5, 6], [], 2, 100⟩ := by
  have h := rateLimited_rejects_without_queueing ⟨7, [5, 6], [], 2, 100⟩ 7
    ⟨1, "POST_TELEMETRY", "DEVICE", 4, [], "", (7, 4), 7⟩ (by decide)
  exact ⟨h.1, h.2.1⟩

end RuleEngine

namespace RuleEngine

/-- Modelled from the spec: §4.7 — per `(chainId, nodeId)` circuit-breaker
state: the timestamps (milliseconds) of recorded failures.  The Java
implementation is not part of this repository snapshot. -/
structure BreakerState where
  failureTimes : List Nat
deriving Repr, DecidableEq

/-- Modelled from the spec: §4.7 — default failure threshold (200 failures
in any 1-minute window). -/
def failureThreshold : Nat := 200

/-- Modelled from the spec: §4.7 — the sliding window length, one minute. -/
def failureWindowMs : Nat := 60000

/-- Modelled from the spec: §4.7 — failures recorded inside the sliding
1-minute window ending at `now`. -/
def recentFailureCount (st : BreakerState) (now : Nat) : Nat :=
  (st.failureTimes.filter
    (fun t => decide (t ≤ now) && decide (now ≤ t + failureWindowMs))).length

/-- Modelled from the spec: §4.7 — the circuit is open once the window
failure count exceeds the threshold. -/
def circuitOpen (st : BreakerState) (now : Nat) : Bool :=
  decide (failureThreshold < recentFailureCount st now)

inductive NodeOutcome
  | success
  | failure
deriving Repr, DecidableEq

inductive MsgResult
  | processed (o : NodeOutcome)
  | circuitOpenFailure
deriving Repr, DecidableEq

structure HandleResult where
  result : MsgResult
  invokedOnMessage : Bool
  state : BreakerState
deriving Repr, DecidableEq

/-- Modelled from the spec: §4.7 — record one failure timestamp. -/
def recordFailure (st : BreakerState) (t : Nat) : BreakerState :=
  ⟨st.failureTimes ++ [t]⟩

/-- Modelled from the spec: §4.7 — message handling at a node guarded by the
breaker: while the circuit is open the message is immediately failed with
`CircuitOpen` and `onMessage` is not invoked; otherwise the node runs and a
failing outcome is recorded in the window. -/
def handleAtNode (st : BreakerState) (now : Nat) (outcome : NodeOutcome) :
    HandleResult :=
  if circuitOpen st now then ⟨.circuitOpenFailure, false, st⟩
  else match outcome with
    | .success => ⟨.processed .success, true, st⟩
    | .failure => ⟨.processed .failure, true, recordFailure st now⟩

/-- Modelled from the spec: §8 scenario — process a sequence of messages at
the node, each with a failing outcome, at the given timestamps. -/
def processFailingSeq (st : BreakerState) (times : List Nat) : BreakerState :=
  times.foldl (fun s t => (handleAtNode s t .failure).state) st

end RuleEngine


namespace RuleEngine

/-- The window count never exceeds the number of recorded failures. -/
theorem recentFailureCount_le (st : BreakerState) (now : Nat) :
    recentFailureCount st now ≤ st.failureTimes.length :=
  List.length_filter_le _ _

/-- With at most `failureThreshold` failures recorded the circuit is closed. -/
theorem circuitClosed_of_few (st : BreakerState) (now : Nat)
    (h : st.failureTimes.length ≤ failureThreshold) :
    circuitOpen st now = false := by
  have hc : recentFailureCount st now ≤ failureThreshold :=
    le_trans (recentFailureCount_le st now) h
  simp [circuitOpen]
  omega

/-- While the total recorded failures stay within the threshold plus one,
every failing message is actually processed and its timestamp recorded. -/
theorem processFailingSeq_records (times : List Nat) :
    ∀ st : BreakerState,
      st.failureTimes.length + times.length ≤ failureThreshold + 1 →
      (processFailingSeq st times).failureTimes = st.failureTimes ++ times := by
  induction times with
  | nil => intro st _; simp [processFailingSeq]
  | cons t ts ih =>
    intro st hlen
    have hclosed : circuitOpen st t = false := by
      apply circuitClosed_of_few
      simp at hlen
      omega
    have hstep : (handleAtNode st t .failure).state = ⟨st.failureTimes ++ [t]⟩ := by
      simp [handleAtNode, hclosed, recordFailure]
    have hrec : processFailingSeq st (t :: ts) =
        processFailingSeq (handleAtNode st t .failure).state ts := by
      simp [processFailingSeq, List.foldl_cons]
    rw [hrec, hstep]
    have := ih ⟨st.failureTimes ++ [t]⟩ (by simp at hlen ⊢; omega)
    simpa [List.append_assoc] using this

end RuleEngine

namespace RuleEngine

/-- The window count and the breaker verdict depend only on the recorded
failure timestamps. -/
theorem recentFailureCount_congr (st : BreakerState) (l : List Nat) (now : Nat)
    (h : st.failureTimes = l) :
    recentFailureCount st now = recentFailureCount ⟨l⟩ now := by
  simp [recentFailureCount, h]

/-- C4: once the failures recorded in the sliding 1-minute window exceed the
threshold (default 200), the node's circuit is open and every message
reaching the node is failed with `CircuitOpen` without `onMessage` being
invoked and without changing the breaker state; in particular, after 201
consecutive failures within 60 seconds (milliseconds 0..200) the window
holds 201 > 200 failures at millisecond 201 and the 202nd message is failed
with `CircuitOpen` without invoking the node's logic. -/
theorem circuitBreaker_opens_and_blocks :
    (∀ (st : BreakerState) (now : Nat) (o : NodeOutcome),
       circuitOpen st now = true →
       handleAtNode st now o = ⟨MsgResult.circuitOpenFailure, false, st⟩) ∧
    ((processFailingSeq ⟨[]⟩ (List.range 201)).failureTimes = List.range 201 ∧
     recentFailureCount (processFailingSeq ⟨[]⟩ (List.range 201)) 201 = 201 ∧
     circuitOpen (processFailingSeq ⟨[]⟩ (List.range 201)) 201 = true ∧
     handleAtNode (processFailingSeq ⟨[]⟩ (List.range 201)) 201
       NodeOutcome.failure =
       ⟨MsgResult.circuitOpenFailure, false,
        processFailingSeq ⟨[]⟩ (List.range 201)⟩) := by
  have hblock : ∀ (st : BreakerState) (now : Nat) (o : NodeOutcome),
      circuitOpen st now = true →
      handleAtNode st now o = ⟨MsgResult.circuitOpenFailure, false, st⟩ := by
    intro st now o h
    simp [handleAtNode, h]
  have hft : (processFailingSeq ⟨[]⟩ (List.range 201)).failureTimes =
      List.range 201 := by
    simpa using processFailingSeq_records (List.range 201) ⟨[]⟩
      (by simp [failureThreshold])
  have hall : ∀ t ∈ List.range 201,
      (decide (t ≤ 201) && decide (201 ≤ t + failureWindowMs)) = true := by
    intro t ht
    have := List.mem_range.mp ht
    simp [failureWindowMs]
    omega
  have hcount : recentFailureCount (processFailingSeq ⟨[]⟩ (List.range 201)) 201
      = 201 := by
    rw [recentFailureCount_congr _ _ _ hft]
    simp only [recentFailureCount, List.filter_eq_self.mpr hall, List.length_range]
  have hopen : circuitOpen (processFailingSeq ⟨[]⟩ (List.range 201)) 201 = true := by
    simp only [circuitOpen, hcount]
    decide
  exact ⟨hblock, hft, hcount, hopen,
         hblock _ 201 NodeOutcome.failure hopen⟩

/-- Witness for C4: the concrete breaker state holding 201 failure
timestamps inside the window blocks the next message without invoking the
node. -/
theorem circuitBreaker_opens_and_blocks_witness :
    handleAtNode ⟨List.range 201⟩ 201 NodeOutcome.failure =
      ⟨MsgResult.circuitOpenFailure, false, ⟨List.range 201⟩⟩ :=
  circuitBreaker_opens_and_blocks.1 ⟨List.range 201⟩ 201 NodeOutcome.failure
    (by
      have hall : ∀ t ∈ List.range 201,
          (decide (t ≤ 201) && decide (201 ≤ t + failureWindowMs)) = true := by
        intro t ht
        have := List.mem_range.mp ht
        simp [failureWindowMs]
        omega
      simp only [circuitOpen, recentFailureCount,
        List.filter_eq_self.mpr hall, List.length_range]
      decide)

end RuleEngine

namespace RuleEngine

inductive CallOutcome
  | ok
  | timeout
deriving Repr, DecidableEq

inductive FailureKind
  | TransientError
deriving Repr, DecidableEq

inductive Disposition
  | succeeded (attempt : Nat)
  | routedToFailure (err : FailureKind) (attempt : Nat)
  | droppedWithMetric (err : FailureKind) (attempt : Nat)
deriving Repr, DecidableEq

/-- Modelled from the spec: §7 — the record of evaluating one message at a
node whose external call may time out: the final disposition (tagged with
the evaluation attempt on which it was decided), the number of external
calls actually made, and the backoff delays scheduled between attempts. -/
structure RetryTrace where
  disposition : Disposition
  callsMade : Nat
  backoffDelays : List Nat
deriving Repr, DecidableEq

/-- Modelled from the spec: §7 — `TransientError` handling: the external
call is retried up to the configured maximum with exponential backoff
(`baseDelay * 2 ^ (attempt - 1)` before the next attempt); once retries are
exhausted, the message is routed to the "Failure" edge when one is present,
otherwise dropped with an error metric.  `call i` is the outcome of the
`i`-th external call (attempts are numbered from 1); the `fuel` argument
only drives the recursion and is always sufficient at the entry point. -/
def retryGo (call : Nat → CallOutcome) (hasFailureEdge : Bool)
    (baseDelay maxRetries : Nat) : Nat → Nat → List Nat → RetryTrace
  | 0, attempt, delays =>
      ⟨if hasFailureEdge then .routedToFailure .TransientError attempt
        else .droppedWithMetric .TransientError attempt, attempt - 1, delays⟩
  | fuel + 1, attempt, delays =>
      if maxRetries < attempt then
        ⟨if hasFailureEdge then .routedToFailure .TransientError attempt
          else .droppedWithMetric .TransientError attempt, attempt - 1, delays⟩
      else
        match call attempt with
        | .ok => ⟨.succeeded attempt, attempt, delays⟩
        | .timeout =>
            retryGo call hasFailureEdge baseDelay maxRetries fuel (attempt + 1)
              (delays ++ [baseDelay * 2 ^ (attempt - 1)])

/-- Modelled from the spec: §7 — evaluate a message at a node with the
transient-retry policy, starting at attempt 1 with no delays scheduled. -/
def evalWithRetry (call : Nat → CallOutcome) (maxRetries : Nat)
    (hasFailureEdge : Bool) (baseDelay : Nat) : RetryTrace :=
  retryGo call hasFailureEdge baseDelay maxRetries (maxRetries + 1) 1 []

/-- When every external call times out, the retry loop makes exactly
`maxRetries` calls, schedules geometrically growing delays, and decides the
exhausted disposition on attempt `maxRetries + 1`. -/
theorem retryGo_all_timeout (call : Nat → CallOutcome) (he : Bool)
    (bd mr : Nat) (hto : ∀ i, call i = CallOutcome.timeout) :
    ∀ (fuel attempt : Nat) (delays : List Nat),
      1 ≤ attempt → attempt ≤ mr + 1 → attempt + fuel = mr + 2 →
      retryGo call he bd mr fuel attempt delays =
        ⟨if he then .routedToFailure .TransientError (mr + 1)
          else .droppedWithMetric .TransientError (mr + 1), mr,
         delays ++ (List.range' attempt (mr + 1 - attempt)).map
           (fun i => bd * 2 ^ (i - 1))⟩ := by
  intro fuel
  induction fuel with
  | zero =>
    intro attempt delays h1 h2 h3
    omega
  | succ f ih =>
    intro attempt delays h1 h2 h3
    by_cases hlt : mr < attempt
    · have ha : attempt = mr + 1 := by omega
      subst ha
      simp [retryGo, hlt]
    · have hk : mr + 1 - attempt = (mr - attempt) + 1 := by omega
      have hcall := hto attempt
      have ih2 := ih (attempt + 1) (delays ++ [bd * 2 ^ (attempt - 1)])
        (by omega) (by omega) (by omega)
      simp only [retryGo, if_neg hlt, hcall]
      rw [ih2, hk, List.range'_succ]
      simp [List.append_assoc]

/-- C6: when a node's external call fails with `TransientError` on every
attempt, it is retried up to the configured maximum with exponential backoff
(delays `baseDelay * 2^0, baseDelay * 2^1, ...`), and after the retries are
exhausted the message is routed to the "Failure" edge when present,
otherwise dropped with an error metric; in particular with retry max 3 a
node whose call times out 3 times makes exactly 3 calls, backs off by
100, 200, 400 ms, and is routed to "Failure" with `TransientError` on the
4th evaluation attempt. -/
theorem transientError_retry_exhaustion (call : Nat → CallOutcome)
    (maxRetries : Nat) (hasFailureEdge : Bool) (baseDelay : Nat)
    (hto : ∀ i, call i = CallOutcome.timeout) :
    evalWithRetry call maxRetries hasFailureEdge baseDelay =
      ⟨if hasFailureEdge
          then Disposition.routedToFailure FailureKind.TransientError (maxRetries + 1)
          else Disposition.droppedWithMetric FailureKind.TransientError (maxRetries + 1),
       maxRetries,
       (List.range maxRetries).map (fun i => baseDelay * 2 ^ i)⟩ ∧
    evalWithRetry (fun _ => CallOutcome.timeout) 3 true 100 =
      ⟨Disposition.routedToFailure FailureKind.TransientError 4, 3,
       [100, 200, 400]⟩ := by
  constructor
  · rw [evalWithRetry,
      retryGo_all_timeout call hasFailureEdge baseDelay maxRetries hto
        (maxRetries + 1) 1 [] (by omega) (by omega) (by omega)]
    simp only [List.nil_append, Nat.add_sub_cancel, List.range'_eq_map_range,
      List.map_map]
    congr 1
    apply List.map_congr_left
    intro i _
    simp
  · rfl

/-- Witness for C6: the concrete retry-max-3 scenario with every call
timing out. -/
theorem transientError_retry_exhaustion_witness :
    evalWithRetry (fun _ => CallOutcome.timeout) 3 true 100 =
      ⟨Disposition.routedToFailure FailureKind.TransientError 4, 3,
       [100, 200, 400]⟩ :=
  (transientError_retry_exhaustion (fun _ => CallOutcome.timeout) 3 true 100
    (fun _ => rfl)).2

end RuleEngine

namespace RuleEngine

/-- Modelled from the spec: §4.4 step 3 — the outgoing edges of `node`
whose relation label matches the routed label. -/
def matchingEdges (edges : List (Nat × String × Nat)) (node : Nat)
    (label : String) : List (Nat × String × Nat) :=
  edges.filter (fun e => e.1 == node && e.2.1 == label)

/-- Events observable while one inbound envelope is processed at a node:
a continuation scheduled on a destination node, a continuation reaching a
terminal leaf or failure, and the single completion acknowledgment of the
parent inbound envelope. -/
inductive FanEv
  | sched (dest : Nat)
  | term (dest : Nat)
  | ackComplete
deriving Repr, DecidableEq

/-- Modelled from the spec: §4.4 step 3 — each `route(envelope, label)`
call schedules one downstream continuation per matching edge. -/
def scheduledConts (edges : List (Nat × String × Nat)) (node : Nat)
    (labels : List String) : List Nat :=
  labels.flatMap (fun l => (matchingEdges edges node l).map (fun e => e.2.2))

/-- Modelled from the spec: §4.4 step 6 — fan-out reference counting: the
count starts at the number of scheduled continuations, each terminating
branch decrements it, and the parent envelope is acknowledged complete when
the count reaches zero. -/
def drainConts : List Nat → Nat → List FanEv
  | [], rc => if rc = 0 then [.ackComplete] else []
  | c :: cs, rc => .term c :: drainConts cs (rc - 1)

/-- Modelled from the spec: §4.4 — processing of one node invocation whose
`onMessage` routed the given labels: the scheduling events followed by the
reference-counted drain of the continuations. -/
def processFanOut (edges : List (Nat × String × Nat)) (node : Nat)
    (labels : List String) : List FanEv :=
  (scheduledConts edges node labels).map .sched ++
    drainConts (scheduledConts edges node labels)
      (scheduledConts edges node labels).length

/-- Draining a continuation list whose reference count equals its length
emits one terminal event per continuation and then the single ack. -/
theorem drainConts_run (conts : List Nat) :
    drainConts conts conts.length = conts.map FanEv.term ++ [FanEv.ackComplete] := by
  induction conts with
  | nil => rfl
  | cons c cs ih => simp [drainConts, ih]

/-- One continuation is scheduled per route call when every routed label
matches exactly one edge. -/
theorem scheduledConts_length (edges : List (Nat × String × Nat)) (node : Nat)
    (labels : List String)
    (h : ∀ l ∈ labels, (matchingEdges edges node l).length = 1) :
    (scheduledConts edges node labels).length = labels.length := by
  induction labels with
  | nil => rfl
  | cons l ls ih =>
    have h1 : (matchingEdges edges node l).length = 1 := h l (by simp)
    have h2 := ih (fun x hx => h x (by simp [hx]))
    simp [scheduledConts] at h2 ⊢
    omega

/-- C3: when `onMessage` routes k labels, each matching exactly one outgoing
edge, exactly k downstream continuations are scheduled, and the parent
inbound envelope is acknowledged complete exactly once, only after all k
continuations have reached a terminal leaf or failure (the ack is the last
event, preceded by the k terminal events). -/
theorem fanout_conservation (edges : List (Nat × String × Nat)) (node : Nat)
    (labels : List String)
    (h : ∀ l ∈ labels, (matchingEdges edges node l).length = 1) :
    (scheduledConts edges node labels).length = labels.length ∧
    processFanOut edges node labels =
      (scheduledConts edges node labels).map FanEv.sched ++
      ((scheduledConts edges node labels).map FanEv.term ++ [FanEv.ackComplete]) ∧
    List.count FanEv.ackComplete (processFanOut edges node labels) = 1 := by
  have hev : processFanOut edges node labels =
      (scheduledConts edges node labels).map FanEv.sched ++
      ((scheduledConts edges node labels).map FanEv.term ++ [FanEv.ackComplete]) := by
    rw [processFanOut, drainConts_run]
  refine ⟨scheduledConts_length edges node labels h, hev, ?_⟩
  have h1 : List.count FanEv.ackComplete
      ((scheduledConts edges node labels).map FanEv.sched) = 0 := by
    rw [List.count_eq_zero]
    simp
  have h2 : List.count FanEv.ackComplete
      ((scheduledConts edges node labels).map FanEv.term) = 0 := by
    rw [List.count_eq_zero]
    simp
  rw [hev]
  simp [List.count_append, h1, h2]

/-- Witness for C3: a switch node at node 1 routing "Success" and "Hot",
each label matching one edge, schedules 2 continuations and acks once. -/
theorem fanout_conservation_witness :
    (scheduledConts [(1, "Success", 2), (1, "Hot", 3)] 1
      ["Success", "Hot"]).length = 2 ∧
    List.count FanEv.ackComplete
      (processFanOut [(1, "Success", 2), (1, "Hot", 3)] 1
        ["Success", "Hot"]) = 1 :=
  have h := fanout_conservation [(1, "Success", 2), (1, "Hot", 3)] 1
    ["Success", "Hot"] (by decide)
  ⟨h.1, h.2.2⟩

end RuleEngine

namespace RuleEngine

/-- Modelled from the spec: §4.6 — a message on the partitioned ingestion
queue: its tenant, its originator (the device the ordering guarantee is
about) and its submission sequence number. -/
structure QMsg where
  tenantId : Nat
  originatorId : Nat
  seq : Nat
deriving Repr, DecidableEq

/-- Modelled from the spec: §4.6 — partition assignment is
`hash(tenantId, originatorId) mod partitionCount`. -/
def partitionOf (hash : Nat → Nat → Nat) (pc : Nat) (m : QMsg) : Nat :=
  hash m.tenantId m.originatorId % pc

/-- Modelled from the spec: §4.6 — the per-partition FIFO queues holding the
submission sequence `subs`: partition `p` holds, in submission order, the
messages assigned to it. -/
def partitionQueues (hash : Nat → Nat → Nat) (pc : Nat) (subs : List QMsg) :
    Nat → List QMsg :=
  fun p => subs.filter (fun m => partitionOf hash pc m == p)

/-- Replace one partition's queue. -/
def updateQ (qs : Nat → List QMsg) (p : Nat) (v : List QMsg) :
    Nat → List QMsg :=
  fun q => if q = p then v else qs q

/-- Modelled from the spec: §4.6 and §5 — consumption of the partitioned
queues under an arbitrary interleaving: `sched` names, step by step, the
partition whose front message the consumer delivers next (an empty
partition yields nothing).  This models concurrent consumers in any order
while each partition is consumed FIFO. -/
def deliverSched : List Nat → (Nat → List QMsg) → List QMsg
  | [], _ => []
  | p :: rest, qs =>
    match qs p with
    | [] => deliverSched rest qs
    | m :: tl => m :: deliverSched rest (updateQ qs p tl)

/-- A schedule that drains every partition `0..pc-1` completely. -/
def drainSched (qs : Nat → List QMsg) (pc : Nat) : List Nat :=
  (List.range pc).flatMap (fun p => List.replicate (qs p).length p)

/-- Delivery depends on the queues only extensionally. -/
theorem deliverSched_ext (sched : List Nat) :
    ∀ qs qs' : Nat → List QMsg, (∀ p, qs p = qs' p) →
      deliverSched sched qs = deliverSched sched qs' := by
  induction sched with
  | nil => intro _ _ _; rfl
  | cons p rest ih =>
    intro qs qs' hq
    simp only [deliverSched]
    rw [hq p]
    cases h : qs' p with
    | nil => exact ih qs qs' hq
    | cons m tl =>
      have hupd : ∀ q, updateQ qs p tl q = updateQ qs' p tl q := by
        intro q
        simp only [updateQ]
        split
        · rfl
        · exact hq q
      exact congrArg (m :: ·) (ih _ _ hupd)

/-- The messages delivered from partition `p` form a prefix of partition
`p`'s queue, for every interleaving; the invariant is that each queue holds
only messages assigned to it. -/
theorem deliverSched_partition_prefix (hash : Nat → Nat → Nat) (pc p : Nat) :
    ∀ (sched : List Nat) (qs : Nat → List QMsg),
      (∀ q x, x ∈ qs q → partitionOf hash pc x = q) →
      (deliverSched sched qs).filter (fun m => partitionOf hash pc m == p) <+:
        qs p := by
  intro sched
  induction sched with
  | nil => intro qs _; exact List.nil_prefix
  | cons p' rest ih =>
    intro qs hinv
    simp only [deliverSched]
    cases h : qs p' with
    | nil => exact ih qs hinv
    | cons m tl =>
      have hm : partitionOf hash pc m = p' :=
        hinv p' m (h ▸ List.mem_cons_self m tl)
      have hinv' : ∀ q x, x ∈ updateQ qs p' tl q → partitionOf hash pc x = q := by
        intro q x hx
        by_cases hq : q = p'
        · subst hq
          simp only [updateQ, if_pos rfl] at hx
          exact hinv q x (h ▸ List.mem_cons_of_mem m hx)
        · simp only [updateQ, if_neg hq] at hx
          exact hinv q x hx
      have hrest := ih (updateQ qs p' tl) hinv'
      by_cases hpp : p' = p
      · subst hpp
        rw [List.filter_cons, if_pos (by simp [hm]), h, List.cons_prefix_cons]
        refine ⟨rfl, ?_⟩
        have hq2 : updateQ qs p' tl p' = tl := by simp [updateQ]
        rwa [hq2] at hrest
      · rw [List.filter_cons, if_neg (by simp [hm, hpp])]
        have hne : ¬ p = p' := fun hc => hpp hc.symm
        have hq : updateQ qs p' tl p = qs p := by simp [updateQ, hne]
        rwa [hq] at hrest

end RuleEngine

namespace RuleEngine

/-- Filtering by a finer predicate `f` ignores a pre-filter by a coarser
predicate `g` implied by `f`. -/
theorem filter_sub (l : List QMsg) (f g : QMsg → Bool)
    (h : ∀ m, f m = true → g m = true) :
    (l.filter g).filter f = l.filter f := by
  rw [List.filter_filter]
  apply List.filter_congr
  intro a _
  cases hf : f a
  · simp
  · simp [h a hf]

/-- Scheduling partition `p` once per queued message drains its whole queue
in FIFO order before the rest of the schedule runs. -/
theorem deliverSched_drain_one (rest : List Nat) (p : Nat) :
    ∀ (l : List QMsg) (qs : Nat → List QMsg), qs p = l →
      deliverSched (List.replicate l.length p ++ rest) qs =
        l ++ deliverSched rest (updateQ qs p []) := by
  intro l
  induction l with
  | nil =>
    intro qs hq
    simp only [List.length_nil, List.replicate_zero, List.nil_append]
    exact deliverSched_ext rest qs (updateQ qs p []) (by
      intro q
      by_cases hqp : q = p
      · simp [updateQ, hqp, hq]
      · simp [updateQ, hqp])
  | cons m tl ih =>
    intro qs hq
    have hrepl : List.replicate (m :: tl).length p =
        p :: List.replicate tl.length p := by
      simp [List.replicate_succ]
    rw [hrepl, List.cons_append]
    simp only [deliverSched, hq]
    have hih := ih (updateQ qs p tl) (by simp [updateQ])
    rw [hih]
    have hext := deliverSched_ext rest (updateQ (updateQ qs p tl) p [])
      (updateQ qs p []) (by
        intro q
        by_cases hqp : q = p
        · simp [updateQ, hqp]
        · simp [updateQ, hqp])
    rw [hext]
    simp

/-- `flatMap` respects pointwise equality on the list's members. -/
theorem flatMap_congr_mem {α β : Type} (l : List α) (f g : α → List β)
    (h : ∀ a ∈ l, f a = g a) : l.flatMap f = l.flatMap g := by
  induction l with
  | nil => rfl
  | cons a as ih =>
    rw [List.flatMap_cons, List.flatMap_cons, h a (by simp),
      ih (fun x hx => h x (by simp [hx]))]

/-- Draining all partitions named by a duplicate-free list delivers each of
their queues completely, in partition order. -/
theorem deliverSched_drainAll :
    ∀ (ps : List Nat) (qs : Nat → List QMsg), ps.Nodup →
      deliverSched (ps.flatMap (fun p => List.replicate (qs p).length p)) qs =
        ps.flatMap (fun p => qs p) := by
  intro ps
  induction ps with
  | nil => intro qs _; rfl
  | cons p ps' ih =>
    intro qs hnd
    have hnotin : p ∉ ps' := (List.nodup_cons.mp hnd).1
    have hnd' : ps'.Nodup := (List.nodup_cons.mp hnd).2
    rw [List.flatMap_cons,
      deliverSched_drain_one (ps'.flatMap fun q => List.replicate (qs q).length q)
        p (qs p) qs rfl]
    have hsched : ps'.flatMap (fun q => List.replicate (qs q).length q) =
        ps'.flatMap (fun q => List.replicate ((updateQ qs p []) q).length q) :=
      flatMap_congr_mem _ _ _ (fun q hq => by
        have hne : ¬ q = p := fun hc => hnotin (hc ▸ hq)
        simp [updateQ, hne])
    rw [hsched, ih (updateQ qs p []) hnd', List.flatMap_cons]
    congr 1
    apply flatMap_congr_mem
    intro q hq
    have hne : ¬ q = p := fun hc => hnotin (hc ▸ hq)
    simp [updateQ, hne]

/-- `filter` distributes over `flatMap`. -/
theorem filter_flatMap_comm {α β : Type} (l : List α) (f : α → List β)
    (pr : β → Bool) :
    (l.flatMap f).filter pr = l.flatMap (fun a => (f a).filter pr) := by
  induction l with
  | nil => rfl
  | cons a as ih => rw [List.flatMap_cons, List.flatMap_cons, List.filter_append, ih]

/-- A `flatMap` whose only non-empty contribution is at `p0` collapses to
that contribution. -/
theorem flatMap_single {β : Type} :
    ∀ (l : List Nat) (f : Nat → List β) (p0 : Nat), l.Nodup → p0 ∈ l →
      (∀ q ∈ l, q ≠ p0 → f q = []) → l.flatMap f = f p0 := by
  intro l
  induction l with
  | nil => intro f p0 _ h _; exact absurd h (List.not_mem_nil p0)
  | cons q l' ih =>
    intro f p0 hnd hmem hz
    rw [List.flatMap_cons]
    by_cases hq : q = p0
    · rw [hq]
      have hnil : l'.flatMap f = [] := by
        rw [List.flatMap_eq_nil_iff]
        intro x hx
        exact hz x (by simp [hx])
          (fun hc => (List.nodup_cons.mp hnd).1 (hq ▸ hc ▸ hx))
      rw [hnil, List.append_nil]
    · rw [hz q (by simp) hq, List.nil_append]
      have hmem' : p0 ∈ l' := by
        rcases List.mem_cons.mp hmem with hc | hc
        · exact absurd hc.symm hq
        · exact hc
      exact ih f p0 (List.nodup_cons.mp hnd).2 hmem'
        (fun x hx => hz x (by simp [hx]))

end RuleEngine

namespace RuleEngine

/-- Messages of one originator key are all assigned to that key's partition. -/
theorem key_implies_partition (hash : Nat → Nat → Nat) (pc t o : Nat)
    (m : QMsg) (h : (m.tenantId == t && m.originatorId == o) = true) :
    (partitionOf hash pc m == hash t o % pc) = true := by
  simp only [Bool.and_eq_true, beq_iff_eq] at h
  simp [partitionOf, h.1, h.2]

/-- The partition queues hold only messages assigned to them. -/
theorem partitionQueues_inv (hash : Nat → Nat → Nat) (pc : Nat)
    (subs : List QMsg) :
    ∀ q x, x ∈ partitionQueues hash pc subs q → partitionOf hash pc x = q := by
  intro q x hx
  have := (List.mem_filter.mp hx).2
  simpa using this

/-- C1: per-originator in-order delivery through the partitioned consumer.
The submission sequence `subs` interleaves messages of the observed
originator `(t, o)` with concurrently submitted messages of any other
originators; consumption interleaves partitions in any order `sched`.
First conjunct: under every consumption schedule the messages of `(t, o)`
are delivered in exactly their submission order (a prefix, since a schedule
may stop early).  Second conjunct: a schedule that drains the queues
delivers all of them, again in submission order — messages submitted
1..N arrive 1..N.  Third conjunct: across different originators no order is
guaranteed — a concrete two-partition run delivers the second-submitted
message of originator 2 before the first-submitted message of originator 1. -/
theorem perOriginator_ordering (hash : Nat → Nat → Nat) (pc : Nat)
    (subs : List QMsg) (t o : Nat) (sched : List Nat) (hpc : 0 < pc) :
    ((deliverSched sched (partitionQueues hash pc subs)).filter
        (fun m => m.tenantId == t && m.originatorId == o) <+:
      subs.filter (fun m => m.tenantId == t && m.originatorId == o)) ∧
    ((deliverSched (drainSched (partitionQueues hash pc subs) pc)
        (partitionQueues hash pc subs)).filter
        (fun m => m.tenantId == t && m.originatorId == o) =
      subs.filter (fun m => m.tenantId == t && m.originatorId == o)) ∧
    deliverSched [0, 1]
        (partitionQueues (fun _ oid => oid) 2 [⟨1, 1, 1⟩, ⟨1, 2, 2⟩]) =
      [⟨1, 2, 2⟩, ⟨1, 1, 1⟩] := by
  have himp : ∀ m : QMsg, (m.tenantId == t && m.originatorId == o) = true →
      (partitionOf hash pc m == hash t o % pc) = true :=
    key_implies_partition hash pc t o
  have hinv := partitionQueues_inv hash pc subs
  have e2 : (partitionQueues hash pc subs (hash t o % pc)).filter
      (fun m => m.tenantId == t && m.originatorId == o) =
      subs.filter (fun m => m.tenantId == t && m.originatorId == o) :=
    filter_sub subs _ _ himp
  refine ⟨?_, ?_, ?_⟩
  · have hpre := deliverSched_partition_prefix hash pc (hash t o % pc) sched
      (partitionQueues hash pc subs) hinv
    have hpre2 := List.IsPrefix.filter
      (fun m => m.tenantId == t && m.originatorId == o) hpre
    rw [filter_sub _ _ _ himp] at hpre2
    rwa [e2] at hpre2
  · rw [drainSched,
      deliverSched_drainAll (List.range pc) (partitionQueues hash pc subs)
        (List.nodup_range pc),
      filter_flatMap_comm]
    have hp0 : hash t o % pc ∈ List.range pc :=
      List.mem_range.mpr (Nat.mod_lt _ hpc)
    rw [flatMap_single (List.range pc) _ (hash t o % pc) (List.nodup_range pc)
      hp0 ?_]
    · exact e2
    · intro q hq hne
      rw [List.filter_eq_nil_iff]
      intro x hx
      intro hk
      exact hne (by
        have h1 := hinv q x hx
        have h2 := himp x hk
        simp only [beq_iff_eq] at h2
        rw [← h1, h2])
  · rfl

/-- Witness for C1: with identity-style hashing, two partitions and the
two-message submission `[originator 1 seq 1, originator 2 seq 2]`, draining
delivers originator 1's messages in submission order. -/
theorem perOriginator_ordering_witness :
    (deliverSched
        (drainSched (partitionQueues (fun _ oid => oid) 2
          [⟨1, 1, 1⟩, ⟨1, 2, 2⟩]) 2)
        (partitionQueues (fun _ oid => oid) 2 [⟨1, 1, 1⟩, ⟨1, 2, 2⟩])).filter
        (fun m => m.tenantId == 1 && m.originatorId == 1) =
      ([⟨1, 1, 1⟩, ⟨1, 2, 2⟩] : List QMsg).filter
        (fun m => m.tenantId == 1 && m.originatorId == 1) :=
  (perOriginator_ordering (fun _ oid => oid) 2 [⟨1, 1, 1⟩, ⟨1, 2, 2⟩] 1 1
    [0, 1] (by decide)).2.1

end RuleEngine

namespace RuleEngine

/-- Modelled from the spec: §3 — a Chain Graph: nodes, directed labelled
edges `(fromNodeId, relationLabel, toNodeId)` and one designated entry
node.  The Java RuleChainActor is not part of this repository snapshot. -/
structure ChainGraph where
  chainId : Nat
  tenantId : Nat
  nodes : List Nat
  edges : List (Nat × String × Nat)
  entry : Nat
deriving Repr, DecidableEq

/-- Modelled from the spec: §3 — a well-formed graph has its entry node and
all edge endpoints among its nodes. -/
def WellFormed (g : ChainGraph) : Prop :=
  g.entry ∈ g.nodes ∧ ∀ e ∈ g.edges, e.1 ∈ g.nodes ∧ e.2.2 ∈ g.nodes

/-- There is an edge from `a` to `b` (under any label). -/
def hasEdge (g : ChainGraph) (a b : Nat) : Bool :=
  g.edges.any (fun e => e.1 == a && e.2.2 == b)

/-- The list of nodes is a walk: every consecutive pair is joined by an
edge of the graph. -/
def Chained (g : ChainGraph) : List Nat → Prop
  | [] => True
  | [_] => True
  | a :: b :: rest => hasEdge g a b = true ∧ Chained g (b :: rest)

/-- Modelled from the spec: §3 — a chain without cycles: no walk leaves a
node and returns to it. -/
def Acyclic (g : ChainGraph) : Prop :=
  ∀ (a : Nat) (l : List Nat), ¬ Chained g (a :: (l ++ [a]))

/-- Modelled from the spec: §4.4 step 3 — resolve the outgoing edge of
`node` matching `label` (first match; this single-path executor follows one
matching edge). -/
def findEdge (g : ChainGraph) (node : Nat) (label : String) : Option Nat :=
  (g.edges.find? (fun e => e.1 == node && e.2.1 == label)).map (fun e => e.2.2)

/-- Modelled from the spec: §4.4 step 4 — default hop limit. -/
def defaultMaxHops : Nat := 1000

inductive PathOutcome
  | completed (hops : Nat) (trace : List Nat)
  | loopLimitExceeded (hops : Nat) (trace : List Nat)
deriving Repr, DecidableEq

def PathOutcome.hops : PathOutcome → Nat
  | .completed h _ => h
  | .loopLimitExceeded h _ => h

def PathOutcome.trace : PathOutcome → List Nat
  | .completed _ t => t
  | .loopLimitExceeded _ t => t

def PathOutcome.isLoopLimit : PathOutcome → Bool
  | .completed _ _ => false
  | .loopLimitExceeded _ _ => true

/-- Modelled from the spec: §4.4 — single-path execution of one message
through the chain.  `emit cur hops` is the relation label the node `cur`
routes at hop count `hops` (`none` when the node ends the path); a missing
matching edge is a terminal leaf; each transition increments the hop
counter, and a transition that would push it past `maxHops` terminates the
path with `LoopLimitExceeded`.  The `fuel` argument drives the recursion
and is always sufficient at the entry point. -/
def runPathGo (g : ChainGraph) (maxHops : Nat)
    (emit : Nat → Nat → Option String) :
    Nat → Nat → Nat → List Nat → PathOutcome
  | 0, _, hops, trace => .loopLimitExceeded hops trace
  | fuel + 1, cur, hops, trace =>
    match emit cur hops with
    | none => .completed hops trace
    | some label =>
      match findEdge g cur label with
      | none => .completed hops trace
      | some nxt =>
        if maxHops ≤ hops then .loopLimitExceeded hops trace
        else runPathGo g maxHops emit fuel nxt (hops + 1) (trace ++ [nxt])

/-- Modelled from the spec: §4.4 — run one message from the entry node with
hop counter 0. -/
def runPath (g : ChainGraph) (maxHops : Nat)
    (emit : Nat → Nat → Option String) : PathOutcome :=
  runPathGo g maxHops emit (maxHops + 1) g.entry 0 [g.entry]

/-- A resolved edge is an edge of the graph; under well-formedness its
target is a node of the graph. -/
theorem findEdge_spec (g : ChainGraph) (cur : Nat) (label : String) (nxt : Nat)
    (h : findEdge g cur label = some nxt) :
    hasEdge g cur nxt = true ∧ (WellFormed g → nxt ∈ g.nodes) := by
  rw [findEdge] at h
  obtain ⟨e, hfind, hmap⟩ := Option.map_eq_some'.mp h
  have hmem := List.mem_of_find?_eq_some hfind
  have hpred := List.find?_some hfind
  simp only [Bool.and_eq_true, beq_iff_eq] at hpred
  constructor
  · rw [hasEdge, List.any_eq_true]
    exact ⟨e, hmem, by simp [hpred.1, hmap]⟩
  · intro hwf
    have he := (hwf.2 e hmem).2
    rwa [hmap] at he

/-- Dropping the head of a walk leaves a walk. -/
theorem chained_tail (g : ChainGraph) (a : Nat) :
    ∀ l, Chained g (a :: l) → Chained g l := by
  intro l h
  cases l with
  | nil => trivial
  | cons b rest => exact h.2

/-- A walk ending at `a` extends along an edge `a → b`. -/
theorem chained_extend (g : ChainGraph) :
    ∀ (l : List Nat) (a b : Nat), Chained g (l ++ [a]) →
      hasEdge g a b = true → Chained g (l ++ [a, b]) := by
  intro l
  induction l with
  | nil => intro a b _ hab; exact ⟨hab, trivial⟩
  | cons x xs ih =>
    intro a b hch hab
    cases xs with
    | nil => exact ⟨hch.1, hab, trivial⟩
    | cons y ys => exact ⟨hch.1, ih a b hch.2 hab⟩

/-- A walk truncates at any interior node. -/
theorem chained_cut (g : ChainGraph) :
    ∀ (l1 : List Nat) (x : Nat) (l2 : List Nat),
      Chained g (l1 ++ x :: l2) → Chained g (l1 ++ [x]) := by
  intro l1
  induction l1 with
  | nil => intro x l2 _; trivial
  | cons a l1' ih =>
    intro x l2 hch
    cases l1' with
    | nil => exact ⟨hch.1, trivial⟩
    | cons b l1'' => exact ⟨hch.1, ih x l2 hch.2⟩

/-- In an acyclic graph every walk visits pairwise distinct nodes. -/
theorem chained_nodup (g : ChainGraph) (hac : Acyclic g) :
    ∀ l, Chained g l → l.Nodup := by
  intro l
  induction l with
  | nil => intro _; exact List.nodup_nil
  | cons a l' ih =>
    intro hch
    rw [List.nodup_cons]
    refine ⟨?_, ih (chained_tail g a l' hch)⟩
    intro hmem
    obtain ⟨u, v, huv⟩ := List.append_of_mem hmem
    rw [huv] at hch
    exact hac a u (chained_cut g (a :: u) a v hch)

end RuleEngine

namespace RuleEngine

/-- Execution invariant of the single-path executor: the hop counter stays
within the limit, a `LoopLimitExceeded` outcome happens exactly at full
allowance, and the visited trace is a walk of graph nodes one longer than
the hop count. -/
theorem runPathGo_inv (g : ChainGraph) (maxHops : Nat)
    (emit : Nat → Nat → Option String) (hwf : WellFormed g) :
    ∀ (fuel cur hops : Nat) (trace pre : List Nat),
      hops + fuel = maxHops + 1 → hops ≤ maxHops →
      trace = pre ++ [cur] → Chained g trace →
      (∀ x ∈ trace, x ∈ g.nodes) → trace.length = hops + 1 →
      (runPathGo g maxHops emit fuel cur hops trace).hops ≤ maxHops ∧
      ((runPathGo g maxHops emit fuel cur hops trace).isLoopLimit = true →
        (runPathGo g maxHops emit fuel cur hops trace).hops = maxHops) ∧
      Chained g (runPathGo g maxHops emit fuel cur hops trace).trace ∧
      (∀ x ∈ (runPathGo g maxHops emit fuel cur hops trace).trace,
        x ∈ g.nodes) ∧
      (runPathGo g maxHops emit fuel cur hops trace).trace.length =
        (runPathGo g maxHops emit fuel cur hops trace).hops + 1 := by
  intro fuel
  induction fuel with
  | zero =>
    intro cur hops trace pre h1 h2 _ _ _ _
    exact absurd h1 (by omega)
  | succ f ih =>
    intro cur hops trace pre h1 h2 htr hch hmem hlen
    cases hem : emit cur hops with
    | none =>
      have hr : runPathGo g maxHops emit (f + 1) cur hops trace =
          .completed hops trace := by
        simp only [runPathGo, hem]
      rw [hr]
      exact ⟨h2, by simp [PathOutcome.isLoopLimit], hch, hmem, hlen⟩
    | some label =>
      cases hfe : findEdge g cur label with
      | none =>
        have hr : runPathGo g maxHops emit (f + 1) cur hops trace =
            .completed hops trace := by
          simp only [runPathGo, hem, hfe]
        rw [hr]
        exact ⟨h2, by simp [PathOutcome.isLoopLimit], hch, hmem, hlen⟩
      | some nxt =>
        by_cases hmax : maxHops ≤ hops
        · have hr : runPathGo g maxHops emit (f + 1) cur hops trace =
              .loopLimitExceeded hops trace := by
            simp only [runPathGo, hem, hfe, if_pos hmax]
          rw [hr]
          have heq : hops = maxHops := Nat.le_antisymm h2 hmax
          exact ⟨h2, fun _ => heq, hch, hmem, hlen⟩
        · have hr : runPathGo g maxHops emit (f + 1) cur hops trace =
              runPathGo g maxHops emit f nxt (hops + 1) (trace ++ [nxt]) := by
            simp only [runPathGo, hem, hfe, if_neg hmax]
          rw [hr]
          have hspec := findEdge_spec g cur label nxt hfe
          have hch2 : Chained g ((pre ++ [cur]) ++ [nxt]) := by
            rw [List.append_assoc]
            exact chained_extend g pre cur nxt (by rw [← htr]; exact hch)
              hspec.1
          have htr2 : trace ++ [nxt] = (pre ++ [cur]) ++ [nxt] := by rw [htr]
          have hmem2 : ∀ x ∈ trace ++ [nxt], x ∈ g.nodes := by
            intro x hx
            rcases List.mem_append.mp hx with hx | hx
            · exact hmem x hx
            · rw [List.mem_singleton.mp hx]
              exact hspec.2 hwf
          have hlen2 : (trace ++ [nxt]).length = (hops + 1) + 1 := by
            simp [hlen]
          exact ih nxt (hops + 1) (trace ++ [nxt]) (pre ++ [cur]) (by omega)
            (by omega) htr2 (by rw [htr2]; exact hch2) hmem2 hlen2

/-- The executor invariant instantiated at the entry node. -/
theorem runPath_inv (g : ChainGraph) (maxHops : Nat)
    (emit : Nat → Nat → Option String) (hwf : WellFormed g) :
    (runPath g maxHops emit).hops ≤ maxHops ∧
    ((runPath g maxHops emit).isLoopLimit = true →
      (runPath g maxHops emit).hops = maxHops) ∧
    Chained g (runPath g maxHops emit).trace ∧
    (∀ x ∈ (runPath g maxHops emit).trace, x ∈ g.nodes) ∧
    (runPath g maxHops emit).trace.length = (runPath g maxHops emit).hops + 1 :=
  runPathGo_inv g maxHops emit hwf (maxHops + 1) g.entry 0 [g.entry] []
    (by omega) (by omega) (by simp) trivial
    (by
      intro x hx
      rw [List.mem_singleton.mp hx]
      exact hwf.1)
    (by simp)

/-- C2: the per-message hop counter grows by one on every node transition
(the visited trace is always one longer than the hop count) and never
exceeds the configured maximum (default `defaultMaxHops = 1000`); a path of
a chain without cycles makes at most `node count` hops; and a path that
would exceed the maximum is terminated with `LoopLimitExceeded`, which
happens exactly when the full hop allowance has been consumed. -/
theorem hopLimit_bounds (g : ChainGraph) (maxHops : Nat)
    (emit : Nat → Nat → Option String) (hwf : WellFormed g) :
    defaultMaxHops = 1000 ∧
    (runPath g maxHops emit).trace.length = (runPath g maxHops emit).hops + 1 ∧
    (runPath g maxHops emit).hops ≤ maxHops ∧
    ((runPath g maxHops emit).isLoopLimit = true →
      (runPath g maxHops emit).hops = maxHops) ∧
    (Acyclic g → (runPath g maxHops emit).hops ≤ g.nodes.length) := by
  have h := runPath_inv g maxHops emit hwf
  refine ⟨rfl, h.2.2.2.2, h.1, h.2.1, ?_⟩
  intro hac
  have hnd := chained_nodup g hac _ h.2.2.1
  have hsub : (runPath g maxHops emit).trace ⊆ g.nodes :=
    fun x hx => h.2.2.2.1 x hx
  have hle := (List.Nodup.subperm hnd hsub).length_le
  have hlen := h.2.2.2.2
  omega

/-- Witness for C2: a well-formed single-node chain with no edges is
acyclic; running a message with the default hop limit stays within both
bounds. -/
theorem hopLimit_bounds_witness :
    (runPath ⟨0, 0, [1], [], 1⟩ defaultMaxHops (fun _ _ => none)).hops ≤
      defaultMaxHops ∧
    (runPath ⟨0, 0, [1], [], 1⟩ defaultMaxHops (fun _ _ => none)).hops ≤
      (⟨0, 0, [1], [], 1⟩ : ChainGraph).nodes.length := by
  have hwf : WellFormed ⟨0, 0, [1], [], 1⟩ := by
    constructor
    · simp
    · intro e he
      exact absurd he (List.not_mem_nil e)
  have h := hopLimit_bounds ⟨0, 0, [1], [], 1⟩ defaultMaxHops
    (fun _ _ => none) hwf
  have hac : Acyclic ⟨0, 0, [1], [], 1⟩ := by
    intro a l hch
    cases l with
    | nil => exact absurd hch.1 (by simp [hasEdge])
    | cons b tl => exact absurd hch.1 (by simp [hasEdge])
  exact ⟨h.2.2.1, h.2.2.2.2 hac⟩

end RuleEngine
